import Mathlib

/-!
Verification of the poker hand classifier and outs estimators.

The development shallowly embeds the data model (`Card`, `Hand`, `HoleCards`),
the classifier `hand_rank`, and the two probability estimators
`royal_probability` and `quads_prob`.  Mutating methods become state
transformers; fallible constructors return `Except`; Python's exact rational
`comb(...)/comb(...)` arithmetic is embedded in `ℚ`.
-/

/-- A single card: a suit in 1..4 and a rank in 1..13 (1 = Ace). -/
structure Card where
  suit : Nat
  rank : Nat
deriving DecidableEq, Repr

/-- A hand of cards together with its derived parallel rank and suit lists. -/
structure Hand where
  cards : List Card
  ranks : List Nat
  suits : List Nat
deriving DecidableEq, Repr

/-- Hand construction: stores the card list and derives the parallel
rank and suit sequences.  The source performs no size validation here
(its length check is commented out). -/
def mkHand (cards : List Card) : Hand :=
  { cards := cards
    ranks := cards.map Card.rank
    suits := cards.map Card.suit }

/-- Errors raised by the data-model constructors and mutators. -/
inductive PokerError where
  | handFull
  | invalidHoleCount
deriving DecidableEq, Repr

/-- `Hand.add_card`, embedded as a state transformer: the first component is
the hand after the call, the second the error raised, if any.  The source
raises before mutating when the hand already has 5 cards. -/
def Hand.add_card (h : Hand) (c : Card) : Hand × Option PokerError :=
  if h.cards.length = 5 then
    (h, some PokerError.handFull)
  else
    ({ cards := h.cards ++ [c]
       ranks := h.ranks ++ [c.rank]
       suits := h.suits ++ [c.suit] }, none)

/-- The two private cards of one player, with derived parallel lists. -/
structure HoleCards where
  cards : List Card
  ranks : List Nat
  suits : List Nat
deriving DecidableEq, Repr

/-- `HoleCards.__init__`: rejects any card count other than 2, otherwise
stores the cards and the derived rank and suit sequences. -/
def HoleCards.make (cards : List Card) : Except PokerError HoleCards :=
  if cards.length ≠ 2 then .error PokerError.invalidHoleCount
  else .ok { cards := cards
             ranks := cards.map Card.rank
             suits := cards.map Card.suit }

/-- The hole-card record obtained from a successful 2-card construction. -/
def holeOf (a b : Card) : HoleCards :=
  { cards := [a, b]
    ranks := [a.rank, b.rank]
    suits := [a.suit, b.suit] }

/-- Modelled from the spec: the module `consts`, which the source imports for
`royal_ranks`, is not among the provided sources.  The spec states the shared
royal-ranks constant is the rank set 1, 10, 11, 12, 13 (Ace, Ten, Jack,
Queen, King), used both for membership tests and, sorted ascending, for the
straight comparison. -/
def royal_ranks : List Nat := [1, 10, 11, 12, 13]

/-- The classifier `hand_rank`.  Returns `none` where the source would raise
(Python's `min` applied to an empty sequence). -/
def hand_rank (hand : Hand) : Option Nat :=
  if hand.suits.dedup.length = 1 then
    -- all cards are the same suit (flush)
    let ranks := hand.ranks.insertionSort (· ≤ ·)
    if ranks = [1, 10, 11, 12, 13] then
      some 1
    else
      match ranks.min? with
      | none => none
      | some min_rank =>
        if ranks.map (fun rank => rank - min_rank) = [0, 1, 2, 3, 4] then some 2
        else some 5
  else if hand.ranks.dedup.length = 2 then
    if hand.ranks.count (hand.ranks.headD 0) = 1 ∨ hand.ranks.count (hand.ranks.headD 0) = 4 then
      some 3
    else
      some 4
  else if hand.ranks.dedup.length = 3 then
    if hand.ranks.any (fun rank => hand.ranks.count rank == 2) then some 8
    else some 7
  else if hand.ranks.dedup.length = 4 then
    some 9
  else
    let ranks := hand.ranks.insertionSort (· ≤ ·)
    match ranks.min? with
    | none => none
    | some min_rank =>
      if ranks.map (fun rank => rank - min_rank) = [0, 1, 2, 3, 4] ∨ ranks = royal_ranks then
        some 6
      else
        some 10

/-- Python's `math.comb`, via the falling factorial so that concrete values
kernel-evaluate quickly. -/
def comb (n k : Nat) : Nat := n.descFactorial k / k.factorial

/-- The suit keys of the `royal_suits` dictionary, in insertion order. -/
def suit_keys : List Nat := [1, 2, 3, 4]

/-- The rank keys of the `ranks` dictionary of `quads_prob`, in insertion
order. -/
def rank_keys : List Nat := [1, 2, 3, 4, 5, 6, 7, 8, 9, 10, 11, 12, 13]

/-- Predicate selecting a visible royal card of suit `s` from a
(rank, suit) pair. -/
def pair_royal (s : Nat) (p : Nat × Nat) : Bool :=
  royal_ranks.contains p.1 && p.2 == s

/-- Number of royal-rank cards of suit `s` visible across board and hole. -/
def board_royal_count (board : Hand) (hole : HoleCards) (s : Nat) : Nat :=
  ((board.ranks.zip board.suits).countP (pair_royal s))
    + ((hole.ranks.zip hole.suits).countP (pair_royal s))

/-- `royal_probability`: sums, over the four suits, the hypergeometric
probability that the undealt board cards supply that suit's missing royal
cards, guarded by `royals ≥ board_len`. -/
def royal_probability (board : Hand) (hole : HoleCards) : ℚ :=
  let board_len := board.cards.length
  (suit_keys.map (fun s => board_royal_count board hole s)).foldl
    (fun probability royals =>
      if board_len ≤ royals then
        probability
          + (comb (52 - (board_len + 2 + 5 - royals)) (5 - board_len - (5 - royals)) : ℚ)
            / (comb (52 - (board_len + 2)) (5 - board_len) : ℚ)
      else probability) 0

/-- Number of cards of rank `r` visible across board and hole. -/
def rank_count (board : Hand) (hole : HoleCards) (r : Nat) : Nat :=
  board.ranks.count r + hole.ranks.count r

/-- `quads_prob`: sums, over the thirteen ranks, the hypergeometric
probability that the undealt board cards supply that rank's missing copies,
guarded by `4 - count ≤ 5 - board_len`. -/
def quads_prob (board : Hand) (hole : HoleCards) : ℚ :=
  let board_len := board.cards.length
  (rank_keys.map (fun r => rank_count board hole r)).foldl
    (fun probability count =>
      if 4 - count ≤ 5 - board_len then
        probability
          + (comb (52 - (board_len + 2 + 4 - count)) (5 - board_len - (4 - count)) : ℚ)
            / (comb (52 - (board_len + 2)) (5 - board_len) : ℚ)
      else probability) 0

/-- The royal-probability formula exactly as the spec words it: for each suit
whose royal count passes the guard, add
`C(52 − known − (5−royals), (5−board_len) − (5−royals)) / C(52 − known, 5 − board_len)`
with `known = board_len + 2`; suits failing the guard contribute 0. -/
def royal_probability_spec (board : Hand) (hole : HoleCards) : ℚ :=
  let board_len := board.cards.length
  let known := board_len + 2
  (suit_keys.map (fun s =>
    let royals := board_royal_count board hole s
    if board_len ≤ royals then
      (comb (52 - known - (5 - royals)) ((5 - board_len) - (5 - royals)) : ℚ)
        / (comb (52 - known) (5 - board_len) : ℚ)
    else 0)).sum

/-- Guarded numerator of one suit's contribution to `royal_probability`. -/
def royal_num (b r : Nat) : Nat :=
  if b ≤ r then comb (52 - (b + 2 + 5 - r)) (5 - b - (5 - r)) else 0

/-- Guarded numerator of one rank's contribution to `quads_prob`. -/
def quads_num (b c : Nat) : Nat :=
  if 4 - c ≤ 5 - b then comb (52 - (b + 2 + 4 - c)) (5 - b - (4 - c)) else 0

/-- Shared denominator: ways to complete the board from the unseen deck. -/
def deck_den (b : Nat) : Nat := comb (52 - (b + 2)) (5 - b)

/-- Table of upper bounds: entry `t` of `quads_cap b t` (head first) bounds
the sum of `quads_num b` over any multiset of positive counts, each at most
4, of total at most `t`. -/
def quads_cap (b : Nat) : Nat → List Nat
  | 0 => [0]
  | t + 1 =>
    let prev := quads_cap b t
    let cand := fun c : Nat =>
      match prev.get? (c - 1) with
      | some v => quads_num b c + v
      | none => 0
    max (max (cand 1) (cand 2)) (max (cand 3) (cand 4)) :: prev

/-- Head of the `quads_cap` table: the bound for total count budget `t`. -/
def Vq (b t : Nat) : Nat := (quads_cap b t).headD 0

/-- The (rank, suit) pair of a card, as read by the counting loops. -/
def toPair (c : Card) : Nat × Nat := (c.rank, c.suit)

/-- Well-formedness of a hand record: the parallel lists derive from the
cards, as every hand produced by the source's constructor and `add_card`
does. -/
def Hand.WF (h : Hand) : Prop :=
  h.ranks = h.cards.map Card.rank ∧ h.suits = h.cards.map Card.suit

/-- Well-formedness of a hole-cards record: exactly two cards, parallel
lists derived from them. -/
def HoleCards.WF (h : HoleCards) : Prop :=
  h.cards.length = 2 ∧ h.ranks = h.cards.map Card.rank ∧ h.suits = h.cards.map Card.suit

/-- A legal deal: board and hole cards pairwise distinct, with suits in 1..4
and ranks in 1..13. -/
def LegalDeal (board : Hand) (hole : HoleCards) : Prop :=
  (board.cards ++ hole.cards).Nodup ∧
    ∀ c ∈ board.cards ++ hole.cards,
      1 ≤ c.suit ∧ c.suit ≤ 4 ∧ 1 ≤ c.rank ∧ c.rank ≤ 13

/-- The parallel-sequences invariant the spec states for the containers. -/
def Parallel (cards : List Card) (ranks suits : List Nat) : Prop :=
  ranks.length = cards.length ∧ suits.length = cards.length ∧
    (∀ i : Nat, ranks[i]? = cards[i]?.map Card.rank) ∧
    (∀ i : Nat, suits[i]? = cards[i]?.map Card.suit)

/-! ## Shared lemmas -/

/-- Building hole cards from exactly two cards succeeds and yields the
record `holeOf` describes. -/
theorem make_holeOf (a b : Card) : HoleCards.make [a, b] = .ok (holeOf a b) := rfl

/-- A suit's contribution to `royal_probability` folds into the guarded
numerator `royal_num` over the shared denominator `deck_den`. -/
theorem royal_foldl (b : Nat) : ∀ (l : List Nat) (acc : ℚ),
    (l.foldl (fun probability royals =>
      if b ≤ royals then
        probability
          + (comb (52 - (b + 2 + 5 - royals)) (5 - b - (5 - royals)) : ℚ)
            / (comb (52 - (b + 2)) (5 - b) : ℚ)
      else probability) acc)
      = acc + ((l.map (royal_num b)).sum : ℚ) / (deck_den b : ℚ) := by
  intro l
  induction l with
  | nil => intro acc; simp
  | cons a l ih =>
    intro acc
    rw [List.foldl_cons]
    by_cases hg : b ≤ a
    · rw [if_pos hg, ih]
      have hnum : royal_num b a = comb (52 - (b + 2 + 5 - a)) (5 - b - (5 - a)) := if_pos hg
      simp only [List.map_cons, List.sum_cons, hnum, deck_den, Nat.cast_add, add_div]
      ring
    · rw [if_neg hg, ih]
      have hnum : royal_num b a = 0 := if_neg hg
      simp [hnum, deck_den]

/-- A rank's contribution to `quads_prob` folds into the guarded numerator
`quads_num` over the shared denominator `deck_den`. -/
theorem quads_foldl (b : Nat) : ∀ (l : List Nat) (acc : ℚ),
    (l.foldl (fun probability count =>
      if 4 - count ≤ 5 - b then
        probability
          + (comb (52 - (b + 2 + 4 - count)) (5 - b - (4 - count)) : ℚ)
            / (comb (52 - (b + 2)) (5 - b) : ℚ)
      else probability) acc)
      = acc + ((l.map (quads_num b)).sum : ℚ) / (deck_den b : ℚ) := by
  intro l
  induction l with
  | nil => intro acc; simp
  | cons a l ih =>
    intro acc
    rw [List.foldl_cons]
    by_cases hg : 4 - a ≤ 5 - b
    · rw [if_pos hg, ih]
      have hnum : quads_num b a = comb (52 - (b + 2 + 4 - a)) (5 - b - (4 - a)) := if_pos hg
      simp only [List.map_cons, List.sum_cons, hnum, deck_den, Nat.cast_add, add_div]
      ring
    · rw [if_neg hg, ih]
      have hnum : quads_num b a = 0 := if_neg hg
      simp [hnum, deck_den]

/-- `royal_probability` as a single fraction of natural numbers. -/
theorem royal_probability_eq (board : Hand) (hole : HoleCards) :
    royal_probability board hole =
      (((suit_keys.map (fun s => board_royal_count board hole s)).map
          (royal_num board.cards.length)).sum : ℚ)
        / (deck_den board.cards.length : ℚ) := by
  simp only [royal_probability]
  rw [royal_foldl, zero_add]

/-- `quads_prob` as a single fraction of natural numbers. -/
theorem quads_prob_eq (board : Hand) (hole : HoleCards) :
    quads_prob board hole =
      (((rank_keys.map (fun r => rank_count board hole r)).map
          (quads_num board.cards.length)).sum : ℚ)
        / (deck_den board.cards.length : ℚ) := by
  simp only [quads_prob]
  rw [quads_foldl, zero_add]

/-- Evaluation of `royal_probability` on an empty board with hole cards
Ten and Jack of Hearts: every suit passes the guard `royals ≥ 0`, Hearts
contributes `C(47,2)` and each other suit `C(45,0) = 1`, all over
`C(50,5)`. -/
theorem royal_probability_c2_eval :
    royal_probability (mkHand []) (holeOf (Card.mk 1 10) (Card.mk 1 11))
      = (1084 : ℚ) / 2118760 := by
  rw [royal_probability_eq]
  have hsum : ((suit_keys.map (fun s =>
      board_royal_count (mkHand []) (holeOf (Card.mk 1 10) (Card.mk 1 11)) s)).map
        (royal_num (mkHand []).cards.length)).sum = 1084 := by decide
  have hden : deck_den (mkHand []).cards.length = 2118760 := by decide
  rw [hsum, hden]
  norm_num

/-- C2: counterexample.  On an empty board with hole = Ten♥, Jack♥ the
returned value is not the claimed `C(47,2)/C(50,5)`: the other three suits
do not contribute 0. -/
theorem royal_probability_empty_board_counterexample :
    royal_probability (mkHand []) (holeOf (Card.mk 1 10) (Card.mk 1 11))
      ≠ (comb 47 2 : ℚ) / (comb 50 5 : ℚ) := by
  rw [royal_probability_c2_eval]
  have h1 : comb 47 2 = 1081 := by decide
  have h2 : comb 50 5 = 2118760 := by decide
  rw [h1, h2]
  norm_num

/-- C2 (amended): on an empty board with hole = Ten♥, Jack♥ the guard
`royals ≥ board_len = 0` passes for all four suits, so the result is
`C(47,2)/C(50,5)` from Hearts plus `C(45,0)/C(50,5)` from each of the other
three suits. -/
theorem royal_probability_empty_board_value :
    royal_probability (mkHand []) (holeOf (Card.mk 1 10) (Card.mk 1 11))
      = (comb 47 2 : ℚ) / (comb 50 5 : ℚ) + 3 * ((comb 45 0 : ℚ) / (comb 50 5 : ℚ)) := by
  rw [royal_probability_c2_eval]
  have h1 : comb 47 2 = 1081 := by decide
  have h2 : comb 50 5 = 2118760 := by decide
  have h3 : comb 45 0 = 1 := by decide
  rw [h1, h2, h3]
  norm_num

/-- C3: with a 4-card board holding three Aces (fourth card of another rank)
and hole ranks unrelated to the board's ranks and to each other, `quads_prob`
is exactly `C(45,0)/C(46,1) = 1/46`: only the Ace passes the feasibility
guard, and its term is the chance the single remaining board card is the
fourth Ace. -/
theorem quads_prob_three_aces (board : Hand) (hole : HoleCards)
    (hlen : board.cards.length = 4)
    (hace : rank_count board hole 1 = 3)
    (hother : ∀ r, r ≠ 1 → rank_count board hole r ≤ 1) :
    quads_prob board hole = (comb 45 0 : ℚ) / (comb 46 1 : ℚ) ∧
      (comb 45 0 : ℚ) / (comb 46 1 : ℚ) = 1 / 46 := by
  have hsmall : ∀ c ≤ 1, quads_num 4 c = 0 := by decide
  constructor
  · rw [quads_prob_eq, hlen]
    have hsum : ((rank_keys.map (fun r => rank_count board hole r)).map (quads_num 4)).sum
        = 1 := by
      simp only [rank_keys, List.map_cons, List.map_nil, List.sum_cons, List.sum_nil]
      rw [hace,
        hsmall _ (hother 2 (by decide)), hsmall _ (hother 3 (by decide)),
        hsmall _ (hother 4 (by decide)), hsmall _ (hother 5 (by decide)),
        hsmall _ (hother 6 (by decide)), hsmall _ (hother 7 (by decide)),
        hsmall _ (hother 8 (by decide)), hsmall _ (hother 9 (by decide)),
        hsmall _ (hother 10 (by decide)), hsmall _ (hother 11 (by decide)),
        hsmall _ (hother 12 (by decide)), hsmall _ (hother 13 (by decide))]
      decide
    rw [hsum]
    have h1 : comb 45 0 = 1 := by decide
    have h2 : comb 46 1 = 46 := by decide
    have h3 : deck_den 4 = 46 := by decide
    rw [h1, h2, h3]
  · have h1 : comb 45 0 = 1 := by decide
    have h2 : comb 46 1 = 46 := by decide
    rw [h1, h2]
    norm_num

/-- C3 witness: the board A♥ A♦ A♠ K♣ with hole 2♥ 7♦ satisfies the
hypotheses, and the probability evaluates to 1/46. -/
theorem quads_prob_three_aces_witness :
    (mkHand [Card.mk 1 1, Card.mk 2 1, Card.mk 3 1, Card.mk 4 13]).cards.length = 4 ∧
      rank_count (mkHand [Card.mk 1 1, Card.mk 2 1, Card.mk 3 1, Card.mk 4 13])
        (holeOf (Card.mk 1 2) (Card.mk 2 7)) 1 = 3 ∧
      quads_prob (mkHand [Card.mk 1 1, Card.mk 2 1, Card.mk 3 1, Card.mk 4 13])
        (holeOf (Card.mk 1 2) (Card.mk 2 7)) = (comb 45 0 : ℚ) / (comb 46 1 : ℚ) :=
  ⟨by decide, by decide,
    (quads_prob_three_aces _ _ (by decide) (by decide)
      (fun r hr => by
        simp only [rank_count, mkHand, holeOf, List.map_cons, List.map_nil,
          List.count_cons, List.count_nil, beq_iff_eq]
        split_ifs <;> omega)).1⟩

/-! ## Counting lemmas -/

/-- A card is determined by its (rank, suit) pair. -/
theorem toPair_injective : Function.Injective toPair := by
  intro a b h
  cases a; cases b
  simpa [toPair, Prod.ext_iff, and_comm] using h

/-- On a deal without duplicate cards, at most 5 royal cards of any one suit
are visible: there are only 5 royal ranks. -/
theorem royal_count_le_five (board : Hand) (hole : HoleCards)
    (hWFb : board.WF) (hWFh : hole.WF)
    (hnodup : (board.cards ++ hole.cards).Nodup) (s : Nat) :
    board_royal_count board hole s ≤ 5 := by
  obtain ⟨hbr, hbs⟩ := hWFb
  obtain ⟨-, hhr, hhs⟩ := hWFh
  have hb : board.ranks.zip board.suits = board.cards.map toPair := by
    rw [hbr, hbs, List.zip_map']
    rfl
  have hh : hole.ranks.zip hole.suits = hole.cards.map toPair := by
    rw [hhr, hhs, List.zip_map']
    rfl
  have hcombined : board_royal_count board hole s
      = (((board.cards ++ hole.cards).map toPair).filter (pair_royal s)).length := by
    rw [board_royal_count, hb, hh, ← List.countP_append, ← List.map_append,
      List.countP_eq_length_filter]
  rw [hcombined]
  have hnd : (((board.cards ++ hole.cards).map toPair).filter (pair_royal s)).Nodup :=
    (hnodup.map toPair_injective).filter _
  have hsub : (((board.cards ++ hole.cards).map toPair).filter (pair_royal s))
      ⊆ [(1, s), (10, s), (11, s), (12, s), (13, s)] := by
    intro p hp
    have hpr := List.of_mem_filter hp
    simp only [pair_royal, Bool.and_eq_true, beq_iff_eq] at hpr
    obtain ⟨hmem, hs⟩ := hpr
    have hmem' : p.1 ∈ royal_ranks := by simpa using hmem
    have hp' : p = (p.1, s) := by rw [← hs]
    simp only [royal_ranks, List.mem_cons, List.not_mem_nil, or_false] at hmem'
    rcases hmem' with h | h | h | h | h <;> (rw [hp', h]; simp)
  have hle := (List.subperm_of_subset hnd hsub).length_le
  simpa using hle

/-- On a legal deal, at most 4 cards of any one rank are visible: the four
suits. -/
theorem rank_count_le_four (board : Hand) (hole : HoleCards)
    (hWFb : board.WF) (hWFh : hole.WF)
    (hnodup : (board.cards ++ hole.cards).Nodup)
    (hsuits : ∀ c ∈ board.cards ++ hole.cards, 1 ≤ c.suit ∧ c.suit ≤ 4) (r : Nat) :
    rank_count board hole r ≤ 4 := by
  obtain ⟨hbr, -⟩ := hWFb
  obtain ⟨-, hhr, -⟩ := hWFh
  have hcombined : rank_count board hole r
      = ((board.cards ++ hole.cards).filter (fun c => c.rank == r)).length := by
    rw [rank_count, hbr, hhr, ← List.count_append, ← List.map_append, List.count,
      List.countP_map, List.countP_eq_length_filter]
    rfl
  rw [hcombined]
  have hndf : ((board.cards ++ hole.cards).filter (fun c => c.rank == r)).Nodup :=
    hnodup.filter _
  have hmapnd : (((board.cards ++ hole.cards).filter (fun c => c.rank == r)).map
      Card.suit).Nodup := by
    apply hndf.map_on
    intro x hx y hy hxy
    have hxr : x.rank = r := by simpa using List.of_mem_filter hx
    have hyr : y.rank = r := by simpa using List.of_mem_filter hy
    cases x; cases y
    simp_all
  have hsub : (((board.cards ++ hole.cards).filter (fun c => c.rank == r)).map
      Card.suit) ⊆ [1, 2, 3, 4] := by
    intro s hsm
    obtain ⟨c, hcf, rfl⟩ := List.mem_map.mp hsm
    have hcl : c ∈ board.cards ++ hole.cards := List.mem_of_mem_filter hcf
    have hcs := hsuits c hcl
    simp only [List.mem_cons, List.not_mem_nil, or_false]
    omega
  have hle := (List.subperm_of_subset hmapnd hsub).length_le
  simpa using hle

/-- Sums of pointwise sums of natural-number lists split. -/
theorem sum_map_add (f g : Nat → Nat) : ∀ rs : List Nat,
    (rs.map (fun r => f r + g r)).sum = (rs.map f).sum + (rs.map g).sum := by
  intro rs
  induction rs with
  | nil => simp
  | cons a rs ih => simp [ih]; omega

/-- Over a duplicate-free key list, at most one key equals `x`. -/
theorem indicator_sum_le (x : Nat) : ∀ rs : List Nat, rs.Nodup →
    (rs.map (fun r => if x == r then 1 else 0)).sum ≤ 1 := by
  intro rs
  induction rs with
  | nil => intro _; simp
  | cons a rs ih =>
    intro hnd
    simp only [List.map_cons, List.sum_cons]
    by_cases hax : a = x
    · have hrest : (rs.map (fun r => if x == r then 1 else 0)).sum = 0 := by
        apply List.sum_eq_zero
        intro y hy
        obtain ⟨r, hr, rfl⟩ := List.mem_map.mp hy
        have hrx : x ≠ r := by
          intro h
          exact (List.nodup_cons.mp hnd).1 ((hax.trans h) ▸ hr)
        simp [hrx]
      subst hax
      rw [hrest]
      simp
    · have h0 : (if x == a then 1 else 0) = 0 := by
        have hxa : ¬x = a := fun h => hax h.symm
        simp [hxa]
      rw [h0]
      simpa using ih (List.nodup_cons.mp hnd).2

/-- Summing the counts of duplicate-free keys over a list never exceeds the
list's length. -/
theorem counts_sum_le (rs : List Nat) (hnd : rs.Nodup) :
    ∀ l : List Nat, (rs.map (fun r => l.count r)).sum ≤ l.length := by
  intro l
  induction l with
  | nil => simp [List.count_nil]
  | cons x l ih =>
    have hsplit : (rs.map (fun r => (x :: l).count r)).sum
        = (rs.map (fun r => l.count r)).sum
          + (rs.map (fun r => if x == r then 1 else 0)).sum := by
      rw [← sum_map_add]
      apply congrArg
      apply List.map_congr_left
      intro r _
      rw [List.count_cons]
    rw [hsplit]
    have hind := indicator_sum_le x rs hnd
    simp only [List.length_cons]
    omega

/-- Each pair is a royal card of at most one suit, so the four per-suit
royal counts sum to at most the number of visible cards. -/
theorem suit_counts_sum_le : ∀ l : List (Nat × Nat),
    (suit_keys.map (fun s => l.countP (pair_royal s))).sum ≤ l.length := by
  intro l
  induction l with
  | nil => simp [suit_keys]
  | cons p l ih =>
    simp only [suit_keys, List.map_cons, List.map_nil, List.sum_cons, List.sum_nil,
      List.countP_cons, List.length_cons] at ih ⊢
    by_cases hroy : royal_ranks.contains p.1 = true
    · simp only [pair_royal, hroy, Bool.true_and, beq_iff_eq]
      split_ifs <;> omega
    · have hz : ∀ s : Nat, pair_royal s p = false := by
        intro s
        simp only [pair_royal, Bool.and_eq_false_iff]
        left
        simpa using hroy
      simp only [hz]
      simp
      omega

/-! ## Enumeration bounds -/

/-- The four guarded royal numerators never exceed the shared denominator,
for any legal board length and any per-suit royal counts realisable from
`board_len + 2` distinct cards. -/
theorem royal_sum_le : ∀ (b r1 r2 r3 r4 : Fin 6),
    r1.val + r2.val + r3.val + r4.val ≤ b.val + 2 →
    royal_num b r1 + royal_num b r2 + royal_num b r3 + royal_num b r4 ≤ deck_den b := by
  decide

/-- Superadditivity of the `Vq` table: consuming budget `c` on one rank and
the rest elsewhere never beats the table's bound. -/
theorem Vq_step : ∀ (b : Fin 6) (t : Fin 8) (c : Fin 5), 1 ≤ c.val → c.val ≤ t.val →
    quads_num b c + Vq b (t.val - c.val) ≤ Vq b t := by
  decide

/-- The `Vq` table is monotone in the budget. -/
theorem Vq_mono : ∀ (b : Fin 6) (t t' : Fin 8), t.val ≤ t'.val → Vq b t ≤ Vq b t' := by
  decide

/-- Thirteen guard-passing zero-count ranks plus a fully spent budget stay
below the shared denominator. -/
theorem Vq_final : ∀ b : Fin 6, 13 * quads_num b 0 + Vq b (b.val + 2) ≤ deck_den b := by
  decide

/-- The shared denominator is positive for every legal board length. -/
theorem deck_den_pos : ∀ b : Fin 6, 0 < deck_den b.val := by decide

/-- Bounding the sum of guarded quads numerators over a list of per-rank
counts (each at most 4) by the free contribution of zero counts plus the
budget table at the total count. -/
theorem quads_sum_bound (b : Nat) (hb : b < 6) :
    ∀ cs : List Nat, (∀ c ∈ cs, c ≤ 4) → cs.sum ≤ 7 →
    (cs.map (quads_num b)).sum ≤ cs.length * quads_num b 0 + Vq b cs.sum := by
  intro cs
  induction cs with
  | nil => intro _ _; simp [Vq, quads_cap]
  | cons c cs ih =>
    intro hle hsum
    simp only [List.map_cons, List.sum_cons, List.length_cons] at hsum ⊢
    have hcs : cs.sum ≤ 7 := by omega
    have hihs := ih (fun x hx => hle x (List.mem_cons_of_mem c hx)) hcs
    rcases Nat.eq_zero_or_pos c with hc0 | hcpos
    · subst hc0
      rw [Nat.succ_mul, Nat.zero_add]
      omega
    · have hc4 : c ≤ 4 := hle c (List.mem_cons_self c cs)
      have hstep := Vq_step ⟨b, hb⟩ ⟨c + cs.sum, by omega⟩ ⟨c, by omega⟩
        (by simpa using hcpos) (by simp)
      simp only [Nat.add_sub_cancel_left] at hstep
      rw [Nat.succ_mul]
      omega

/-- A sum of fractions over a common denominator is the fraction of the
sum. -/
theorem sum_map_div (g : Nat → Nat) (D : ℚ) : ∀ l : List Nat,
    (l.map (fun r => (g r : ℚ) / D)).sum = ((l.map g).sum : ℚ) / D := by
  intro l
  induction l with
  | nil => simp
  | cons a l ih =>
    simp only [List.map_cons, List.sum_cons, ih, Nat.cast_add, add_div]

/-- C1: for every board of at most 5 cards and hole cards drawn without
duplicates, `royal_probability` returns exactly the spec's per-suit guarded
hypergeometric sum
`C(52−known−(5−royals), (5−board_len)−(5−royals)) / C(52−known, 5−board_len)`
with `known = board_len + 2`, suits failing the guard `royals ≥ board_len`
contributing 0. -/
theorem royal_probability_matches_spec (board : Hand) (hole : HoleCards)
    (hWFb : board.WF) (hWFh : hole.WF)
    (hnodup : (board.cards ++ hole.cards).Nodup)
    (hb : board.cards.length ≤ 5) :
    royal_probability board hole = royal_probability_spec board hole := by
  have hcnt : ∀ s, board_royal_count board hole s ≤ 5 :=
    royal_count_le_five board hole hWFb hWFh hnodup
  rw [royal_probability_eq]
  simp only [royal_probability_spec]
  have hterm : ∀ s ∈ suit_keys,
      (if board.cards.length ≤ board_royal_count board hole s then
        (comb (52 - (board.cards.length + 2) - (5 - board_royal_count board hole s))
            ((5 - board.cards.length) - (5 - board_royal_count board hole s)) : ℚ)
          / (comb (52 - (board.cards.length + 2)) (5 - board.cards.length) : ℚ)
      else 0)
      = (royal_num board.cards.length (board_royal_count board hole s) : ℚ)
        / (deck_den board.cards.length : ℚ) := by
    intro s _
    by_cases hg : board.cards.length ≤ board_royal_count board hole s
    · rw [if_pos hg]
      have harg : 52 - (board.cards.length + 2) - (5 - board_royal_count board hole s)
          = 52 - (board.cards.length + 2 + 5 - board_royal_count board hole s) := by
        have := hcnt s
        omega
      rw [harg, royal_num, if_pos hg, deck_den]
    · rw [if_neg hg, royal_num, if_neg hg]
      simp
  rw [List.map_congr_left hterm,
    sum_map_div (fun s => royal_num board.cards.length (board_royal_count board hole s))
      _ suit_keys,
    List.map_map]
  rfl

/-- C1 witness: a concrete legal 3-card board and hole pair on which the
code and the spec formula agree. -/
theorem royal_probability_matches_spec_witness :
    (mkHand [Card.mk 1 1, Card.mk 2 5, Card.mk 3 13]).cards.length ≤ 5 ∧
      royal_probability (mkHand [Card.mk 1 1, Card.mk 2 5, Card.mk 3 13])
          (holeOf (Card.mk 4 10) (Card.mk 1 7))
        = royal_probability_spec (mkHand [Card.mk 1 1, Card.mk 2 5, Card.mk 3 13])
          (holeOf (Card.mk 4 10) (Card.mk 1 7)) :=
  ⟨by decide,
    royal_probability_matches_spec _ _ ⟨rfl, rfl⟩ ⟨rfl, rfl, rfl⟩ (by decide) (by decide)⟩

/-- The four per-suit royal counts of a well-formed deal sum to at most the
number of visible cards. -/
theorem royal_counts_total (board : Hand) (hole : HoleCards)
    (hWFb : board.WF) (hWFh : hole.WF) :
    (suit_keys.map (fun s => board_royal_count board hole s)).sum
      ≤ board.cards.length + 2 := by
  have hsplit : ∀ s ∈ suit_keys, board_royal_count board hole s
      = ((board.ranks.zip board.suits) ++ (hole.ranks.zip hole.suits)).countP
          (pair_royal s) := by
    intro s _
    rw [board_royal_count, List.countP_append]
  rw [List.map_congr_left hsplit]
  have hlen := suit_counts_sum_le ((board.ranks.zip board.suits)
    ++ (hole.ranks.zip hole.suits))
  have hlb : (board.ranks.zip board.suits).length = board.cards.length := by
    rw [hWFb.1, hWFb.2]
    simp
  have hlh : (hole.ranks.zip hole.suits).length = 2 := by
    rw [hWFh.2.1, hWFh.2.2]
    simp [hWFh.1]
  rw [List.length_append, hlb, hlh] at hlen
  exact hlen

/-- The thirteen per-rank counts of a well-formed deal sum to at most the
number of visible cards. -/
theorem rank_counts_total (board : Hand) (hole : HoleCards)
    (hWFb : board.WF) (hWFh : hole.WF) :
    (rank_keys.map (fun r => rank_count board hole r)).sum
      ≤ board.cards.length + 2 := by
  have hsplit : ∀ r ∈ rank_keys, rank_count board hole r
      = (board.ranks ++ hole.ranks).count r := by
    intro r _
    rw [rank_count, List.count_append]
  rw [List.map_congr_left hsplit]
  have hlen := counts_sum_le rank_keys (by decide) (board.ranks ++ hole.ranks)
  have hlb : board.ranks.length = board.cards.length := by
    rw [hWFb.1]
    simp
  have hlh : hole.ranks.length = 2 := by
    rw [hWFh.2.1]
    simp [hWFh.1]
  rw [List.length_append, hlb, hlh] at hlen
  exact hlen

/-- C4: on every legal deal with a board of at most 5 cards, both
`royal_probability` and `quads_prob` land in the interval [0, 1]; in
particular the rank-by-rank sum in `quads_prob` never exceeds 1. -/
theorem probability_bounds (board : Hand) (hole : HoleCards)
    (hWFb : board.WF) (hWFh : hole.WF) (hlegal : LegalDeal board hole)
    (hb : board.cards.length ≤ 5) :
    (0 ≤ royal_probability board hole ∧ royal_probability board hole ≤ 1) ∧
      (0 ≤ quads_prob board hole ∧ quads_prob board hole ≤ 1) := by
  obtain ⟨hnodup, hranges⟩ := hlegal
  have hb6 : board.cards.length < 6 := by omega
  have hdpos : (0 : ℚ) < (deck_den board.cards.length : ℚ) := by
    exact_mod_cast deck_den_pos ⟨board.cards.length, hb6⟩
  refine ⟨⟨?_, ?_⟩, ⟨?_, ?_⟩⟩
  · rw [royal_probability_eq]
    exact div_nonneg (Nat.cast_nonneg _) (Nat.cast_nonneg _)
  · rw [royal_probability_eq, div_le_one hdpos]
    have hcnt : ∀ s, board_royal_count board hole s ≤ 5 :=
      royal_count_le_five board hole hWFb hWFh hnodup
    have htotal := royal_counts_total board hole hWFb hWFh
    simp only [suit_keys, List.map_cons, List.map_nil, List.sum_cons,
      List.sum_nil, Nat.add_zero] at htotal
    have hsum4 : board_royal_count board hole 1 + board_royal_count board hole 2
        + board_royal_count board hole 3 + board_royal_count board hole 4
        ≤ board.cards.length + 2 := by omega
    have hmain : royal_num board.cards.length (board_royal_count board hole 1)
        + royal_num board.cards.length (board_royal_count board hole 2)
        + royal_num board.cards.length (board_royal_count board hole 3)
        + royal_num board.cards.length (board_royal_count board hole 4)
        ≤ deck_den board.cards.length :=
      royal_sum_le ⟨board.cards.length, hb6⟩
        ⟨board_royal_count board hole 1, by have := hcnt 1; omega⟩
        ⟨board_royal_count board hole 2, by have := hcnt 2; omega⟩
        ⟨board_royal_count board hole 3, by have := hcnt 3; omega⟩
        ⟨board_royal_count board hole 4, by have := hcnt 4; omega⟩
        hsum4
    simp only [suit_keys, List.map_cons, List.map_nil, List.sum_cons, List.sum_nil]
    have hplain : royal_num board.cards.length (board_royal_count board hole 1)
        + (royal_num board.cards.length (board_royal_count board hole 2)
        + (royal_num board.cards.length (board_royal_count board hole 3)
        + (royal_num board.cards.length (board_royal_count board hole 4) + 0)))
        ≤ deck_den board.cards.length := by omega
    exact_mod_cast hplain
  · rw [quads_prob_eq]
    exact div_nonneg (Nat.cast_nonneg _) (Nat.cast_nonneg _)
  · rw [quads_prob_eq, div_le_one hdpos]
    have hle4 : ∀ c ∈ rank_keys.map (fun r => rank_count board hole r), c ≤ 4 := by
      intro c hc
      obtain ⟨r, -, rfl⟩ := List.mem_map.mp hc
      exact rank_count_le_four board hole hWFb hWFh hnodup
        (fun c hcl => ⟨(hranges c hcl).1, (hranges c hcl).2.1⟩) r
    have htotal := rank_counts_total board hole hWFb hWFh
    have hsum7 : (rank_keys.map (fun r => rank_count board hole r)).sum ≤ 7 := by
      omega
    have hbound := quads_sum_bound board.cards.length hb6
      (rank_keys.map (fun r => rank_count board hole r)) hle4 hsum7
    have hmono : Vq board.cards.length (rank_keys.map
          (fun r => rank_count board hole r)).sum
        ≤ Vq board.cards.length (board.cards.length + 2) :=
      Vq_mono ⟨board.cards.length, hb6⟩
        ⟨(rank_keys.map (fun r => rank_count board hole r)).sum, by omega⟩
        ⟨board.cards.length + 2, by omega⟩ htotal
    have hfinal : 13 * quads_num board.cards.length 0
        + Vq board.cards.length (board.cards.length + 2)
        ≤ deck_den board.cards.length := Vq_final ⟨board.cards.length, hb6⟩
    have hlen13 : (rank_keys.map (fun r => rank_count board hole r)).length = 13 := by
      simp [rank_keys]
    rw [hlen13] at hbound
    have hplain : ((rank_keys.map (fun r => rank_count board hole r)).map
        (quads_num board.cards.length)).sum ≤ deck_den board.cards.length := by
      omega
    exact_mod_cast hplain

/-- C4 witness: a concrete legal deal on which both probabilities lie in
[0, 1]. -/
theorem probability_bounds_witness :
    LegalDeal (mkHand [Card.mk 1 2, Card.mk 2 9, Card.mk 3 11])
        (holeOf (Card.mk 4 1) (Card.mk 1 13)) ∧
      (0 ≤ royal_probability (mkHand [Card.mk 1 2, Card.mk 2 9, Card.mk 3 11])
            (holeOf (Card.mk 4 1) (Card.mk 1 13))
        ∧ royal_probability (mkHand [Card.mk 1 2, Card.mk 2 9, Card.mk 3 11])
            (holeOf (Card.mk 4 1) (Card.mk 1 13)) ≤ 1) ∧
      (0 ≤ quads_prob (mkHand [Card.mk 1 2, Card.mk 2 9, Card.mk 3 11])
            (holeOf (Card.mk 4 1) (Card.mk 1 13))
        ∧ quads_prob (mkHand [Card.mk 1 2, Card.mk 2 9, Card.mk 3 11])
            (holeOf (Card.mk 4 1) (Card.mk 1 13)) ≤ 1) :=
  ⟨by unfold LegalDeal; decide,
    probability_bounds _ _ ⟨rfl, rfl⟩ ⟨rfl, rfl, rfl⟩ (by unfold LegalDeal; decide)
      (by decide)⟩

/-! ## Classifier lemmas -/

/-- A list of length five is an explicit five-element list. -/
theorem list_len5 (l : List Nat) (h : l.length = 5) :
    ∃ a b c d e, l = [a, b, c, d, e] := by
  match l, h with
  | [a, b, c, d, e], _ => exact ⟨a, b, c, d, e, rfl⟩

/-- A nonempty constant list deduplicates to a singleton. -/
theorem dedup_singleton : ∀ {l : List Nat} {s : Nat}, l ≠ [] → (∀ x ∈ l, x = s) →
    l.dedup = [s] := by
  intro l
  induction l with
  | nil => intro s hne _; cases hne rfl
  | cons a l ih =>
    intro s hne hall
    have ha : a = s := hall a (List.mem_cons_self a l)
    rcases eq_or_ne l [] with rfl | hl
    · subst ha
      simp
    · have hmem : a ∈ l := by
        obtain ⟨b, l', rfl⟩ := List.exists_cons_of_ne_nil hl
        have hb : b = s := hall b (by simp)
        rw [ha, ← hb]
        simp
      rw [List.dedup_cons_of_mem hmem]
      exact ih hl (fun x hx => hall x (List.mem_cons_of_mem a hx))

/-- C5: a 5-card single-suit hand classifies as Royal Flush (1) exactly when
its sorted ranks are [1,10,11,12,13], else as Straight Flush (2) when the
sorted ranks are five consecutive integers, else as Flush (5) — the flush
branch fires regardless of rank multiplicities. -/
theorem flush_classification (h : Hand) (hWF : h.WF) (hlen5 : h.cards.length = 5)
    (hflush : ∃ s, ∀ x ∈ h.suits, x = s) :
    (h.ranks.insertionSort (· ≤ ·) = [1, 10, 11, 12, 13] → hand_rank h = some 1) ∧
    (h.ranks.insertionSort (· ≤ ·) ≠ [1, 10, 11, 12, 13] →
      (∃ m, h.ranks.insertionSort (· ≤ ·) = [m, m + 1, m + 2, m + 3, m + 4]) →
      hand_rank h = some 2) ∧
    (h.ranks.insertionSort (· ≤ ·) ≠ [1, 10, 11, 12, 13] →
      ¬(∃ m, h.ranks.insertionSort (· ≤ ·) = [m, m + 1, m + 2, m + 3, m + 4]) →
      hand_rank h = some 5) := by
  obtain ⟨s, hs⟩ := hflush
  have hslen : h.suits.length = 5 := by rw [hWF.2, List.length_map, hlen5]
  have hsne : h.suits ≠ [] := by
    intro h0
    rw [h0] at hslen
    simp at hslen
  have hdedlen : h.suits.dedup.length = 1 := by
    rw [dedup_singleton hsne hs]
    rfl
  have hrlen : (h.ranks.insertionSort (· ≤ ·)).length = 5 := by
    rw [List.length_insertionSort, hWF.1, List.length_map, hlen5]
  obtain ⟨a, b, c, d, e, hsr⟩ := list_len5 _ hrlen
  refine ⟨?_, ?_, ?_⟩
  · intro hroyal
    simp only [hand_rank]
    rw [if_pos hdedlen, if_pos hroyal]
  · intro hnroyal hcons
    obtain ⟨m, hm⟩ := hcons
    simp only [hand_rank]
    rw [if_pos hdedlen, if_neg hnroyal]
    split
    · rename_i heq
      rw [hm, List.min?_cons'] at heq
      cases heq
    · rename_i min_rank heq
      rw [hm, List.min?_cons'] at heq
      simp only [List.foldl] at heq
      have hmin : min_rank = min (min (min (min m (m + 1)) (m + 2)) (m + 3)) (m + 4) :=
        (Option.some.inj heq).symm
      rw [hm, if_pos ?_]
      simp only [List.map_cons, List.map_nil, List.cons.injEq, and_true]
      omega
  · intro hnroyal hncons
    simp only [hand_rank]
    rw [if_pos hdedlen, if_neg hnroyal]
    split
    · rename_i heq
      rw [hsr, List.min?_cons'] at heq
      cases heq
    · rename_i min_rank heq
      rw [hsr, List.min?_cons'] at heq
      simp only [List.foldl] at heq
      have hmin : min_rank = min (min (min (min a b) c) d) e :=
        (Option.some.inj heq).symm
      rw [hsr, if_neg ?_]
      intro hcond
      simp only [List.map_cons, List.map_nil, List.cons.injEq, and_true] at hcond
      apply hncons
      refine ⟨min_rank, ?_⟩
      rw [hsr]
      simp only [List.cons.injEq, and_true]
      omega

/-- C5 witness: the straight-flush hand 5♣6♣7♣8♣9♣ classifies as 2. -/
theorem flush_classification_witness :
    (mkHand [Card.mk 4 5, Card.mk 4 6, Card.mk 4 7, Card.mk 4 8, Card.mk 4 9]).cards.length
        = 5 ∧
      hand_rank (mkHand [Card.mk 4 5, Card.mk 4 6, Card.mk 4 7, Card.mk 4 8, Card.mk 4 9])
        = some 2 :=
  ⟨by decide,
    (flush_classification _ ⟨rfl, rfl⟩ (by decide) ⟨4, by decide⟩).2.1
      (by decide) ⟨5, by decide⟩⟩

/-- C6: a 5-card hand with at least two distinct suits and five distinct
ranks classifies as Straight (6) exactly when the sorted ranks are five
consecutive integers or equal the `royal_ranks` constant, and as High
Card (10) otherwise. -/
theorem straight_classification (h : Hand) (hWF : h.WF) (hlen5 : h.cards.length = 5)
    (hsuits : 2 ≤ h.suits.dedup.length) (hranks : h.ranks.dedup.length = 5) :
    ((∃ m, h.ranks.insertionSort (· ≤ ·) = [m, m + 1, m + 2, m + 3, m + 4])
        ∨ h.ranks.insertionSort (· ≤ ·) = royal_ranks → hand_rank h = some 6) ∧
    (¬(∃ m, h.ranks.insertionSort (· ≤ ·) = [m, m + 1, m + 2, m + 3, m + 4]) →
      h.ranks.insertionSort (· ≤ ·) ≠ royal_ranks → hand_rank h = some 10) := by
  have hrlen : (h.ranks.insertionSort (· ≤ ·)).length = 5 := by
    rw [List.length_insertionSort, hWF.1, List.length_map, hlen5]
  obtain ⟨a, b, c, d, e, hsr⟩ := list_len5 _ hrlen
  constructor
  · intro hyp
    simp only [hand_rank]
    rw [if_neg (by omega), if_neg (by omega), if_neg (by omega), if_neg (by omega)]
    rcases hyp with ⟨m, hm⟩ | hroyal
    · split
      · rename_i heq
        rw [hm, List.min?_cons'] at heq
        cases heq
      · rename_i min_rank heq
        rw [hm, List.min?_cons'] at heq
        simp only [List.foldl] at heq
        have hmin : min_rank = min (min (min (min m (m + 1)) (m + 2)) (m + 3)) (m + 4) :=
          (Option.some.inj heq).symm
        rw [hm, if_pos ?_]
        left
        simp only [List.map_cons, List.map_nil, List.cons.injEq, and_true]
        omega
    · split
      · rename_i heq
        rw [hroyal, royal_ranks, List.min?_cons'] at heq
        cases heq
      · rename_i min_rank heq
        rw [if_pos (Or.inr hroyal)]
  · intro hncons hnroyal
    simp only [hand_rank]
    rw [if_neg (by omega), if_neg (by omega), if_neg (by omega), if_neg (by omega)]
    split
    · rename_i heq
      rw [hsr, List.min?_cons'] at heq
      cases heq
    · rename_i min_rank heq
      rw [hsr, List.min?_cons'] at heq
      simp only [List.foldl] at heq
      have hmin : min_rank = min (min (min (min a b) c) d) e :=
        (Option.some.inj heq).symm
      rw [if_neg ?_]
      intro hcond
      rcases hcond with hcond | hroyal
      · rw [hsr] at hcond
        simp only [List.map_cons, List.map_nil, List.cons.injEq, and_true] at hcond
        apply hncons
        refine ⟨min_rank, ?_⟩
        rw [hsr]
        simp only [List.cons.injEq, and_true]
        omega
      · exact hnroyal hroyal

/-- C6 witness: the ace-low straight A♥2♦3♠4♣5♥ classifies as 6. -/
theorem straight_classification_witness :
    (mkHand [Card.mk 1 1, Card.mk 2 2, Card.mk 3 3, Card.mk 4 4, Card.mk 1 5]).cards.length
        = 5 ∧
      hand_rank (mkHand [Card.mk 1 1, Card.mk 2 2, Card.mk 3 3, Card.mk 4 4, Card.mk 1 5])
        = some 6 :=
  ⟨by decide,
    (straight_classification _ ⟨rfl, rfl⟩ (by decide) (by decide) (by decide)).1
      (Or.inl ⟨1, by decide⟩)⟩

/-! ## Error handling and invariants -/

/-- C7: `hand_rank` performs no hand-size validation: on the 1-card hand
2♥ (length ≠ 5) it silently returns the category code 5 (Flush) instead of
rejecting the input. -/
theorem hand_rank_silent_on_short_hand :
    (mkHand [Card.mk 1 2]).cards.length ≠ 5 ∧
      hand_rank (mkHand [Card.mk 1 2]) = some 5 :=
  ⟨by decide, by decide⟩

/-- C8: constructing `HoleCards` from a list whose length is not 2 errors;
`add_card` on a 5-card hand errors and leaves the cards, ranks and suits
sequences unchanged; `add_card` on a hand with fewer than 5 cards
succeeds. -/
theorem hand_size_errors :
    (∀ cs : List Card, cs.length ≠ 2 →
        HoleCards.make cs = .error PokerError.invalidHoleCount) ∧
      (∀ (h : Hand) (c : Card), h.cards.length = 5 →
        (h.add_card c).2 = some PokerError.handFull ∧
          (h.add_card c).1.cards = h.cards ∧ (h.add_card c).1.ranks = h.ranks ∧
          (h.add_card c).1.suits = h.suits) ∧
      (∀ (h : Hand) (c : Card), h.cards.length < 5 → (h.add_card c).2 = none) := by
  refine ⟨?_, ?_, ?_⟩
  · intro cs hcs
    rw [HoleCards.make, if_pos hcs]
  · intro h c hlen
    rw [Hand.add_card, if_pos hlen]
    exact ⟨rfl, rfl, rfl, rfl⟩
  · intro h c hlen
    rw [Hand.add_card, if_neg (by omega)]

/-- C8 witness: concrete instances of the three behaviours. -/
theorem hand_size_errors_witness :
    HoleCards.make [] = .error PokerError.invalidHoleCount ∧
      ((mkHand [Card.mk 1 2, Card.mk 1 3, Card.mk 1 4, Card.mk 1 5, Card.mk 1 6]).add_card
          (Card.mk 2 7)).2 = some PokerError.handFull ∧
      ((mkHand [Card.mk 1 2, Card.mk 1 3, Card.mk 1 4, Card.mk 1 5, Card.mk 1 6]).add_card
          (Card.mk 2 7)).1.cards
        = (mkHand [Card.mk 1 2, Card.mk 1 3, Card.mk 1 4, Card.mk 1 5, Card.mk 1 6]).cards ∧
      ((mkHand [Card.mk 1 2]).add_card (Card.mk 2 7)).2 = none :=
  ⟨hand_size_errors.1 [] (by decide),
    (hand_size_errors.2.1 _ (Card.mk 2 7) (by decide)).1,
    (hand_size_errors.2.1 _ (Card.mk 2 7) (by decide)).2.1,
    hand_size_errors.2.2 _ (Card.mk 2 7) (by decide)⟩

/-- Construction from a card list always yields derived parallel
sequences. -/
theorem parallel_of_derived (cards : List Card) :
    Parallel cards (cards.map Card.rank) (cards.map Card.suit) := by
  refine ⟨by simp, by simp, fun i => ?_, fun i => ?_⟩ <;> simp [List.getElem?_map]

/-- C9: for `Hand` (after construction and after every successful
`add_card`) and for `HoleCards` (after successful construction), the rank
and suit sequences have the same length as the card sequence and agree with
it index by index. -/
theorem parallel_invariant :
    (∀ cs : List Card, Parallel (mkHand cs).cards (mkHand cs).ranks (mkHand cs).suits) ∧
      (∀ (h : Hand) (c : Card), Parallel h.cards h.ranks h.suits →
        (h.add_card c).2 = none →
        Parallel (h.add_card c).1.cards (h.add_card c).1.ranks (h.add_card c).1.suits) ∧
      (∀ (cs : List Card) (hc : HoleCards), HoleCards.make cs = .ok hc →
        Parallel hc.cards hc.ranks hc.suits) := by
  refine ⟨?_, ?_, ?_⟩
  · intro cs
    exact parallel_of_derived cs
  · intro h c hpar hok
    by_cases hlen : h.cards.length = 5
    · rw [Hand.add_card, if_pos hlen] at hok
      cases hok
    · have hr : h.ranks = h.cards.map Card.rank :=
        List.ext_getElem? (fun n => by rw [hpar.2.2.1 n, List.getElem?_map])
      have hsu : h.suits = h.cards.map Card.suit :=
        List.ext_getElem? (fun n => by rw [hpar.2.2.2 n, List.getElem?_map])
      rw [Hand.add_card, if_neg hlen]
      have hr' : h.ranks ++ [c.rank] = (h.cards ++ [c]).map Card.rank := by
        rw [hr, List.map_append]
        rfl
      have hs' : h.suits ++ [c.suit] = (h.cards ++ [c]).map Card.suit := by
        rw [hsu, List.map_append]
        rfl
      simpa [hr', hs'] using parallel_of_derived (h.cards ++ [c])
  · intro cs hc hmk
    rw [HoleCards.make] at hmk
    by_cases hcs : cs.length ≠ 2
    · rw [if_pos hcs] at hmk
      cases hmk
    · rw [if_neg hcs] at hmk
      have := Except.ok.inj hmk
      rw [← this]
      exact parallel_of_derived cs

/-- C9 witness: the invariant at a concrete construction and a concrete
successful `add_card`. -/
theorem parallel_invariant_witness :
    Parallel (mkHand [Card.mk 1 3]).cards (mkHand [Card.mk 1 3]).ranks
        (mkHand [Card.mk 1 3]).suits ∧
      ((mkHand [Card.mk 1 3]).add_card (Card.mk 2 4)).2 = none ∧
      Parallel ((mkHand [Card.mk 1 3]).add_card (Card.mk 2 4)).1.cards
        ((mkHand [Card.mk 1 3]).add_card (Card.mk 2 4)).1.ranks
        ((mkHand [Card.mk 1 3]).add_card (Card.mk 2 4)).1.suits :=
  ⟨parallel_invariant.1 [Card.mk 1 3], by decide,
    parallel_invariant.2.1 _ (Card.mk 2 4) (parallel_invariant.1 [Card.mk 1 3])
      (by decide)⟩

/-- C10: the `Hand` constructor performs no size validation: it stores any
card list unchanged, a 6-card list included; only `add_card` enforces the
5-card cap. -/
theorem mkHand_no_validation :
    (∀ cs : List Card, (mkHand cs).cards = cs) ∧
      (mkHand [Card.mk 1 1, Card.mk 1 2, Card.mk 1 3, Card.mk 1 4, Card.mk 1 5,
        Card.mk 1 6]).cards.length = 6 :=
  ⟨fun _ => rfl, by decide⟩
